import Mathlib

/-!
Verification of the `repo-insights` hotspot engine (`repo_insights/hotspots.py`)
against its natural-language specification.

The Python module computes, for every file below an analysis root, a
structural-complexity metric and a change-activity metric mined from git
history, optionally folds the per-file table up to a configured directory
depth, and classifies each row for display.  This file gives a shallow
embedding of the relevant functions and proves/refutes the specified
properties.

Modelling conventions:
* Filesystem paths are represented by their components relative to the
  resolved analysis root (`Path(...).resolve().relative_to(analyze_path)`
  in the source yields exactly this component list), together with a Boolean
  marking whether the path refers to a directory.  The source renders an
  aggregation key as an absolute path string with a trailing `/` for
  directories; with the analysis root fixed, that rendering is injective,
  and re-parsing a rendered key (`Path(s)` drops the trailing slash,
  `resolve().relative_to` recovers the components, `is_dir()` on an
  unchanged filesystem returns the directory marker) gives back the same
  components and marker.  So a key string is modelled by the pair itself.
* pandas `DataFrame` tables are lists of rows; `groupby(...).agg('sum')` is
  modelled as: list the distinct keys (first occurrence order) and sum the
  matching rows per key.  pandas sorts the group keys instead; none of the
  properties below depend on the output order, and the idempotence proof
  does not exploit the first-occurrence order (the second pass maps every
  key of an aggregated table to itself).
* Machine integers are `Int` (pandas int64 overflow is out of scope).
* Python strings are Lean `String`s; Python string methods are re-implemented
  structurally over the character list so that they evaluate in the kernel.
* Fallible Python code (code that can raise) returns `Except String`.
-/

namespace RepoInsights

/-- A path value: the components of the path relative to the resolved
analysis root, plus whether the path refers to a directory (for rendered
aggregation keys this is the trailing-slash marker, which on an unchanged
filesystem coincides with `Path.is_dir()`). -/
structure PathVal where
  parts : List String
  isDir : Bool
deriving DecidableEq

/-- One row of the analysis table (`self.data` once both metric columns are
populated): `file_path`, `changes`, `complexity`.  Before aggregation the
rows are the FileRecords of the spec; after aggregation they are the
AggregateNodes (the source reuses one DataFrame shape for both). -/
structure Row where
  file_path : PathVal
  changes : Int
  complexity : Int
deriving DecidableEq

/-- Distinct keys of a list in order of first occurrence (the group keys of
the modelled `groupby`). -/
def dedupFirst {κ : Type} [DecidableEq κ] : List κ → List κ
  | [] => []
  | k :: ks => k :: (dedupFirst ks).filter (fun b => b ≠ k)

/-- Embeds `aggregation_level` from `wrangle_data_by_depth_level`: the truncated
key a row maps to, or `none` when the row is shallower than the depth and
falls out of scope.  Mirrors the source branch for branch:
paths deeper than `depth_level` are truncated to the ancestor directory at
that depth (rendered with a trailing slash, i.e. `isDir := true`); paths of
exactly `depth_level` components keep their own path, marked as a directory
when `is_dir()` holds; shallower paths yield `None`. -/
def aggregation_level (depth_level : Int) (path : PathVal) : Option PathVal :=
  if (path.parts.length : Int) > depth_level then
    some { parts := path.parts.take depth_level.toNat, isDir := true }
  else if (path.parts.length : Int) = depth_level then
    if path.isDir then
      some { parts := path.parts, isDir := true }
    else
      some { parts := path.parts, isDir := false }
  else
    none

/-- Sum of one metric column over the rows of `keyed` whose key equals `k`
(one cell of the `groupby(...).agg({..: 'sum'})` result). -/
def groupMetric (v : Row → Int) (keyed : List (PathVal × Row)) (k : PathVal) : Int :=
  ((keyed.filter (fun p => p.1 = k)).map (fun p => v p.2)).sum

/-- Embeds `wrangle_data_by_depth_level`: returns the table unchanged for a
negative (disabled) depth, otherwise keys every row by `aggregation_level`,
drops out-of-scope rows (`notnull` filter), and groups by the key, summing
`changes` and `complexity`. -/
def wrangle_data_by_depth_level (depth_level : Int) (data : List Row) : List Row :=
  if depth_level < 0 then data
  else
    let keyed := data.filterMap (fun r =>
      (aggregation_level depth_level r.file_path).map (fun k => (k, r)))
    (dedupFirst (keyed.map Prod.fst)).map (fun k =>
      { file_path := k
        changes := groupMetric Row.changes keyed k
        complexity := groupMetric Row.complexity keyed k })

/-! ### Basic lemmas about `dedupFirst` and grouped sums -/

theorem mem_dedupFirst {κ : Type} [DecidableEq κ] {l : List κ} {x : κ} :
    x ∈ dedupFirst l ↔ x ∈ l := by
  induction l with
  | nil => simp [dedupFirst]
  | cons k ks ih =>
      simp only [dedupFirst, List.mem_cons, List.mem_filter, decide_eq_true_eq]
      constructor
      · rintro (rfl | ⟨hmem, _⟩)
        · exact Or.inl rfl
        · exact Or.inr (ih.mp hmem)
      · rintro (rfl | hmem)
        · exact Or.inl rfl
        · by_cases hx : x = k
          · exact Or.inl hx
          · exact Or.inr ⟨ih.mpr hmem, hx⟩

theorem dedupFirst_nodup {κ : Type} [DecidableEq κ] (l : List κ) :
    (dedupFirst l).Nodup := by
  induction l with
  | nil => simp [dedupFirst]
  | cons k ks ih =>
      refine List.Nodup.cons ?_ (List.Nodup.filter _ ih)
      intro hmem
      have := (List.mem_filter.mp hmem).2
      simp at this

theorem dedupFirst_eq_self {κ : Type} [DecidableEq κ] {l : List κ}
    (h : l.Nodup) : dedupFirst l = l := by
  induction l with
  | nil => rfl
  | cons k ks ih =>
      have hk : k ∉ ks := (List.nodup_cons.mp h).1
      have htl : dedupFirst ks = ks := ih (List.nodup_cons.mp h).2
      simp only [dedupFirst, htl]
      congr 1
      apply List.filter_eq_self.mpr
      intro b hb
      simp only [decide_eq_true_eq]
      intro hbk
      exact hk (hbk ▸ hb)

theorem sum_map_extract {κ : Type} [DecidableEq κ] (f : κ → Int) :
    ∀ (D : List κ), D.Nodup → ∀ x ∈ D,
      (D.map f).sum = f x + ((D.filter (fun y => y ≠ x)).map f).sum := by
  intro D
  induction D with
  | nil => intro _ x hx; simp at hx
  | cons d ds ih =>
      intro hnd x hx
      have hd : d ∉ ds := (List.nodup_cons.mp hnd).1
      have hnds : ds.Nodup := (List.nodup_cons.mp hnd).2
      rcases List.mem_cons.mp hx with rfl | hx
      · have : ds.filter (fun y => y ≠ x) = ds := by
          apply List.filter_eq_self.mpr
          intro b hb
          simp only [decide_eq_true_eq]
          intro hbx
          exact hd (hbx ▸ hb)
        simp only [ne_eq, decide_not] at this ⊢
        simp [List.filter_cons, this]
      · have hdx : d ≠ x := fun hdx => hd (hdx ▸ hx)
        have := ih hnds x hx
        simp only [List.map_cons, List.sum_cons, this, List.filter_cons, hdx,
          decide_eq_true_eq]
        simp [hdx]
        ring

theorem filter_key_eq_nil {l : List (PathVal × Row)} {k : PathVal}
    (h : k ∉ l.map Prod.fst) : l.filter (fun p => p.1 = k) = [] := by
  apply List.filter_eq_nil_iff.mpr
  intro p hp
  simp only [decide_eq_true_eq]
  intro hpk
  exact h (hpk ▸ List.mem_map_of_mem Prod.fst hp)

/-- Grouping by key and summing a metric per group conserves the total:
the grouped sums add up to the plain sum over all keyed rows. -/
theorem sum_groupMetric (v : Row → Int) :
    ∀ keyed : List (PathVal × Row),
      ((dedupFirst (keyed.map Prod.fst)).map (groupMetric v keyed)).sum
        = (keyed.map (fun p => v p.2)).sum := by
  intro keyed
  induction keyed with
  | nil => simp [dedupFirst, groupMetric]
  | cons a t ih =>
      simp only [List.map_cons, dedupFirst, List.sum_cons]
      set D := dedupFirst (t.map Prod.fst) with hD
      have hhead : groupMetric v (a :: t) a.1
          = v a.2 + groupMetric v t a.1 := by
        simp [groupMetric, List.filter_cons]
      have htail : ∀ k, k ≠ a.1 →
          groupMetric v (a :: t) k = groupMetric v t k := by
        intro k hk
        have : ¬(a.1 = k) := fun h => hk h.symm
        simp [groupMetric, List.filter_cons, this]
      have hfilt : ((D.filter (fun y => y ≠ a.1)).map (groupMetric v (a :: t))).sum
          = ((D.filter (fun y => y ≠ a.1)).map (groupMetric v t)).sum := by
        apply congrArg
        apply List.map_congr_left
        intro k hk
        exact htail k (by simpa using (List.mem_filter.mp hk).2)
      rw [hhead, hfilt]
      by_cases hmem : a.1 ∈ D
      · have hnd : D.Nodup := dedupFirst_nodup _
        have := sum_map_extract (groupMetric v t) D hnd a.1 hmem
        rw [ih] at this
        omega
      · have h1 : groupMetric v t a.1 = 0 := by
          have : a.1 ∉ t.map Prod.fst := fun h => hmem (mem_dedupFirst.mpr h)
          simp [groupMetric, filter_key_eq_nil this]
        have h2 : D.filter (fun y => y ≠ a.1) = D := by
          apply List.filter_eq_self.mpr
          intro b hb
          simp only [decide_eq_true_eq]
          intro hb1
          exact hmem (hb1 ▸ hb)
        rw [h1, h2, ih]
        omega

/-! ### Lemmas about `aggregation_level` -/

theorem aggregation_level_isSome (depth_level : Int) (p : PathVal) :
    (aggregation_level depth_level p).isSome = true
      ↔ depth_level ≤ (p.parts.length : Int) := by
  unfold aggregation_level
  split
  · rename_i h1
    simp
    omega
  · rename_i h1
    split
    · rename_i h2
      split <;> simp <;> omega
    · rename_i h2
      simp
      omega

theorem aggregation_level_key_length (depth_level : Int) (h0 : 0 ≤ depth_level)
    (p k : PathVal) (h : aggregation_level depth_level p = some k) :
    (k.parts.length : Int) = depth_level := by
  unfold aggregation_level at h
  split at h
  · rename_i h1
    injection h with h
    rw [← h]
    simp only [List.length_take]
    omega
  · rename_i h1
    split at h
    · rename_i h2
      split at h <;> (injection h with h; rw [← h]; simpa using h2)
    · exact absurd h (by simp)

theorem aggregation_level_self (depth_level : Int) (p : PathVal)
    (hlen : (p.parts.length : Int) = depth_level) :
    aggregation_level depth_level p = some p := by
  have h1 : ¬((p.parts.length : Int) > depth_level) := by omega
  obtain ⟨parts, isDir⟩ := p
  cases isDir <;> simp_all [aggregation_level]

/-- The second components of the keyed list are exactly the in-scope rows:
those whose relative path has at least `depth_level` components. -/
theorem keyed_map_snd (depth_level : Int) (data : List Row) :
    (data.filterMap (fun r =>
        (aggregation_level depth_level r.file_path).map (fun k => (k, r)))).map Prod.snd
      = data.filter (fun r => depth_level ≤ (r.file_path.parts.length : Int)) := by
  induction data with
  | nil => rfl
  | cons r t ih =>
      simp only [List.filterMap_cons, List.filter_cons]
      cases h : aggregation_level depth_level r.file_path with
      | none =>
          have hlen : ¬(depth_level ≤ (r.file_path.parts.length : Int)) := by
            intro hle
            have := (aggregation_level_isSome depth_level r.file_path).mpr hle
            simp [h] at this
          simp [hlen, ih]
      | some k =>
          have hlen : depth_level ≤ (r.file_path.parts.length : Int) := by
            have : (aggregation_level depth_level r.file_path).isSome = true := by
              simp [h]
            exact (aggregation_level_isSome depth_level r.file_path).mp this
          simp [hlen, ih]

theorem wrangle_pos (depth_level : Int) (h : ¬ depth_level < 0) (data : List Row) :
    wrangle_data_by_depth_level depth_level data
      = (dedupFirst ((data.filterMap (fun r =>
            (aggregation_level depth_level r.file_path).map (fun k => (k, r)))).map
              Prod.fst)).map
          (fun k =>
            { file_path := k
              changes := groupMetric Row.changes (data.filterMap (fun r =>
                (aggregation_level depth_level r.file_path).map (fun k => (k, r)))) k
              complexity := groupMetric Row.complexity (data.filterMap (fun r =>
                (aggregation_level depth_level r.file_path).map (fun k => (k, r)))) k }) := by
  simp [wrangle_data_by_depth_level, h]

/-- C1 (aggregation conservation): for every depth level `≥ 0` and every
populated table, the sum of `complexity` over the AggregateNodes produced by
`wrangle_data_by_depth_level` equals the sum of `complexity` over the rows
that map into scope at that depth — those whose relative path has at least
`depth_level` components — and likewise for `changes`. -/
theorem conservation_of_sums (depth_level : Int) (h : 0 ≤ depth_level) (data : List Row) :
    ((wrangle_data_by_depth_level depth_level data).map Row.complexity).sum
      = ((data.filter (fun r =>
            depth_level ≤ (r.file_path.parts.length : Int))).map Row.complexity).sum
    ∧ ((wrangle_data_by_depth_level depth_level data).map Row.changes).sum
      = ((data.filter (fun r =>
            depth_level ≤ (r.file_path.parts.length : Int))).map Row.changes).sum := by
  have hneg : ¬ depth_level < 0 := by omega
  rw [wrangle_pos depth_level hneg data]
  set keyed := data.filterMap (fun r =>
    (aggregation_level depth_level r.file_path).map (fun k => (k, r))) with hkd
  constructor
  · rw [List.map_map]
    show ((dedupFirst (keyed.map Prod.fst)).map (groupMetric Row.complexity keyed)).sum = _
    rw [sum_groupMetric]
    calc (keyed.map (fun p => Row.complexity p.2)).sum
        = ((keyed.map Prod.snd).map Row.complexity).sum := by rw [List.map_map]; rfl
      _ = _ := by rw [hkd, keyed_map_snd]
  · rw [List.map_map]
    show ((dedupFirst (keyed.map Prod.fst)).map (groupMetric Row.changes keyed)).sum = _
    rw [sum_groupMetric]
    calc (keyed.map (fun p => Row.changes p.2)).sum
        = ((keyed.map Prod.snd).map Row.changes).sum := by rw [List.map_map]; rfl
      _ = _ := by rw [hkd, keyed_map_snd]

/-- Witness for `conservation_of_sums` at depth 1 on a concrete two-row
table (one row in scope, one shallower row that is dropped). -/
theorem conservation_of_sums_witness :
    ((wrangle_data_by_depth_level 1
        [{ file_path := { parts := ["a", "b"], isDir := false }, changes := 1, complexity := 2 },
         { file_path := { parts := [], isDir := true }, changes := 3, complexity := 4 }]).map
          Row.complexity).sum
      = (([{ file_path := { parts := ["a", "b"], isDir := false }, changes := 1, complexity := 2 },
           { file_path := { parts := [], isDir := true }, changes := 3, complexity := 4 }].filter
            (fun r => (1 : Int) ≤ (r.file_path.parts.length : Int))).map Row.complexity).sum
    ∧ ((wrangle_data_by_depth_level 1
        [{ file_path := { parts := ["a", "b"], isDir := false }, changes := 1, complexity := 2 },
         { file_path := { parts := [], isDir := true }, changes := 3, complexity := 4 }]).map
          Row.changes).sum
      = (([{ file_path := { parts := ["a", "b"], isDir := false }, changes := 1, complexity := 2 },
           { file_path := { parts := [], isDir := true }, changes := 3, complexity := 4 }].filter
            (fun r => (1 : Int) ≤ (r.file_path.parts.length : Int))).map Row.changes).sum :=
  conservation_of_sums 1 (by decide)
    [{ file_path := { parts := ["a", "b"], isDir := false }, changes := 1, complexity := 2 },
     { file_path := { parts := [], isDir := true }, changes := 3, complexity := 4 }]

/-! ### Idempotence of the depth aggregation -/

theorem filterMap_agg_eq_map (depth_level : Int) :
    ∀ rows : List Row,
      (∀ r ∈ rows, (r.file_path.parts.length : Int) = depth_level) →
      rows.filterMap (fun r =>
          (aggregation_level depth_level r.file_path).map (fun k => (k, r)))
        = rows.map (fun r => (r.file_path, r)) := by
  intro rows
  induction rows with
  | nil => intro _; rfl
  | cons r t ih =>
      intro hlen
      have hr := aggregation_level_self depth_level r.file_path (hlen r (by simp))
      rw [List.filterMap_cons, hr, List.map_cons]
      show (r.file_path, r) :: List.filterMap (fun r =>
            (aggregation_level depth_level r.file_path).map (fun k => (k, r))) t
          = (r.file_path, r) :: List.map (fun r => (r.file_path, r)) t
      rw [ih (fun s hs => hlen s (by simp [hs]))]

theorem filter_key_map_self :
    ∀ rows : List Row, (rows.map Row.file_path).Nodup → ∀ r ∈ rows,
      ((rows.map (fun s => (s.file_path, s))).filter (fun p => p.1 = r.file_path))
        = [(r.file_path, r)] := by
  intro rows
  induction rows with
  | nil => intro _ r hr; simp at hr
  | cons s t ih =>
      intro hnd r hr
      rw [List.map_cons] at hnd
      obtain ⟨hs, hts⟩ := List.nodup_cons.mp hnd
      rcases List.mem_cons.mp hr with rfl | hrt
      · simp only [List.map_cons, List.filter_cons, decide_eq_true_eq, if_true]
        congr 1
        apply List.filter_eq_nil_iff.mpr
        intro p hp
        simp only [decide_eq_true_eq]
        intro hpk
        obtain ⟨u, hu, rfl⟩ := List.mem_map.mp hp
        exact hs (hpk ▸ List.mem_map_of_mem Row.file_path hu)
      · have hne : s.file_path ≠ r.file_path := by
          intro hEq
          exact hs (hEq ▸ List.mem_map_of_mem Row.file_path hrt)
        simp only [List.map_cons, List.filter_cons, decide_eq_true_eq]
        rw [if_neg hne]
        exact ih hts r hrt

/-- A table whose rows all sit at exactly `depth_level` components with
pairwise-distinct paths is a fixed point of the aggregation (each row is its
own aggregation key, each group is a singleton). -/
theorem wrangle_fixed (depth_level : Int) (rows : List Row)
    (hlen : ∀ r ∈ rows, (r.file_path.parts.length : Int) = depth_level)
    (hnd : (rows.map Row.file_path).Nodup) :
    wrangle_data_by_depth_level depth_level rows = rows := by
  by_cases hneg : depth_level < 0
  · simp [wrangle_data_by_depth_level, hneg]
  · rw [wrangle_pos depth_level hneg rows]
    rw [filterMap_agg_eq_map depth_level rows hlen]
    have hkeys : (rows.map (fun r => (r.file_path, r))).map Prod.fst
        = rows.map Row.file_path := by
      rw [List.map_map]
      rfl
    rw [hkeys, dedupFirst_eq_self hnd, List.map_map]
    have hpt : ∀ r ∈ rows,
        ((fun k =>
            ({ file_path := k
               changes := groupMetric Row.changes
                 (rows.map (fun s => (s.file_path, s))) k
               complexity := groupMetric Row.complexity
                 (rows.map (fun s => (s.file_path, s))) k } : Row)) ∘ Row.file_path) r
          = r := by
      intro r hr
      have hfil := filter_key_map_self rows hnd r hr
      simp only [Function.comp_apply, groupMetric, hfil]
      simp
    rw [List.map_congr_left hpt]
    simp

/-- C2 (idempotent aggregation): for every table and every depth level
`D ≥ 0`, applying `wrangle_data_by_depth_level` twice at depth `D` yields
the same table as applying it once. -/
theorem wrangle_idempotent (depth_level : Int) (h0 : 0 ≤ depth_level) (data : List Row) :
    wrangle_data_by_depth_level depth_level (wrangle_data_by_depth_level depth_level data)
      = wrangle_data_by_depth_level depth_level data := by
  have hneg : ¬ depth_level < 0 := by omega
  apply wrangle_fixed
  · intro r hr
    rw [wrangle_pos depth_level hneg data] at hr
    obtain ⟨k, hk, rfl⟩ := List.mem_map.mp hr
    have hk2 : k ∈ (data.filterMap (fun r =>
        (aggregation_level depth_level r.file_path).map (fun k => (k, r)))).map Prod.fst :=
      mem_dedupFirst.mp hk
    obtain ⟨pr, hpr, rfl⟩ := List.mem_map.mp hk2
    obtain ⟨r0, _, hsome⟩ := List.mem_filterMap.mp hpr
    obtain ⟨k0, hagg, hk0⟩ := Option.map_eq_some'.mp hsome
    have : pr.1 = k0 := by rw [← hk0]
    rw [this]
    exact aggregation_level_key_length depth_level h0 r0.file_path k0 hagg
  · rw [wrangle_pos depth_level hneg data, List.map_map]
    have : ∀ k ∈ dedupFirst ((data.filterMap (fun r =>
        (aggregation_level depth_level r.file_path).map (fun k => (k, r)))).map Prod.fst),
        (Row.file_path ∘ (fun k =>
          ({ file_path := k
             changes := groupMetric Row.changes (data.filterMap (fun r =>
               (aggregation_level depth_level r.file_path).map (fun k => (k, r)))) k
             complexity := groupMetric Row.complexity (data.filterMap (fun r =>
               (aggregation_level depth_level r.file_path).map (fun k => (k, r)))) k } : Row))) k
          = k := by
      intro k _
      rfl
    rw [List.map_congr_left this]
    simpa using dedupFirst_nodup _

/-- Witness for `wrangle_idempotent` at depth 1 on a concrete table. -/
theorem wrangle_idempotent_witness :
    wrangle_data_by_depth_level 1 (wrangle_data_by_depth_level 1
        [{ file_path := { parts := ["src", "x.py"], isDir := false }, changes := 1, complexity := 5 },
         { file_path := { parts := ["src", "y.py"], isDir := false }, changes := 2, complexity := 7 }])
      = wrangle_data_by_depth_level 1
        [{ file_path := { parts := ["src", "x.py"], isDir := false }, changes := 1, complexity := 5 },
         { file_path := { parts := ["src", "y.py"], isDir := false }, changes := 2, complexity := 7 }] :=
  wrangle_idempotent 1 (by decide)
    [{ file_path := { parts := ["src", "x.py"], isDir := false }, changes := 1, complexity := 5 },
     { file_path := { parts := ["src", "y.py"], isDir := false }, changes := 2, complexity := 7 }]

/-! ### Depth-0 aggregation (C3) -/

/-- C3 counterexample: on the spec scenario — files `src/x.py`
(complexity 5, changes 1) and `src/y.py` (complexity 7, changes 2) under the
analysis root — depth-0 aggregation does NOT produce the AggregateNode
`src/`: `relative_path.parts[:0]` is empty, so the truncated key is the
analysis root itself, not its immediate child `src`. -/
theorem depth_zero_claim_false :
    wrangle_data_by_depth_level 0
        [{ file_path := { parts := ["src", "x.py"], isDir := false }, changes := 1, complexity := 5 },
         { file_path := { parts := ["src", "y.py"], isDir := false }, changes := 2, complexity := 7 }]
      ≠ [{ file_path := { parts := ["src"], isDir := true }, changes := 3, complexity := 12 }] := by
  decide

/-- C3 amended: depth-0 aggregation collapses the whole table into exactly
one AggregateNode whose path is the analysis root itself (rendered with a
trailing slash, components `[]`) carrying the summed metrics
(complexity 12, changes 3); the node `src/` the spec scenario expects is
what depth-1 aggregation produces. -/
theorem depth_zero_single_root_node :
    wrangle_data_by_depth_level 0
        [{ file_path := { parts := ["src", "x.py"], isDir := false }, changes := 1, complexity := 5 },
         { file_path := { parts := ["src", "y.py"], isDir := false }, changes := 2, complexity := 7 }]
      = [{ file_path := { parts := [], isDir := true }, changes := 3, complexity := 12 }]
    ∧ wrangle_data_by_depth_level 1
        [{ file_path := { parts := ["src", "x.py"], isDir := false }, changes := 1, complexity := 5 },
         { file_path := { parts := ["src", "y.py"], isDir := false }, changes := 2, complexity := 7 }]
      = [{ file_path := { parts := ["src"], isDir := true }, changes := 3, complexity := 12 }] := by
  constructor <;> decide

/-! ### Python string primitives

Re-implemented structurally over the character list (the core `String`
methods use `Substring` loops that do not evaluate in the kernel). -/

/-- Helper for `pySplit`: split, accumulating the current piece reversed. -/
def splitOnCharAux (c : Char) : List Char → List Char → List String
  | [], acc => [String.mk acc.reverse]
  | d :: rest, acc =>
      if d = c then String.mk acc.reverse :: splitOnCharAux c rest []
      else splitOnCharAux c rest (d :: acc)

/-- Python `s.split(sep)` for a one-character separator: splits at every
occurrence, keeping empty pieces (`"".split('\n') == ['']`,
`"a\n\nb".split('\n') == ['a', '', 'b']`). -/
def pySplit (c : Char) (s : String) : List String := splitOnCharAux c s.toList []

/-- Python `s.endswith(suffix)`. -/
def pyEndsWith (s suffix : String) : Bool := suffix.toList.isSuffixOf s.toList

/-- Python `s.lstrip()` on a character list (ASCII whitespace; Python also
strips `\f`, `\v` and Unicode spaces, which no claim exercises). -/
def pyLstrip (l : List Char) : List Char := l.dropWhile Char.isWhitespace

/-- Python `s.startswith((p1, p2, ...))` on character lists. -/
def startsWithAny (l : List Char) (prefixes : List (List Char)) : Bool :=
  prefixes.any (fun p => p.isPrefixOf l)

/-- Python `int(s)`: strip surrounding whitespace, optional single sign,
then at least one decimal digit; raises `ValueError` otherwise.  (Digit
separators `_` accepted by Python 3.6+ are not modelled; no claim touches
them.) -/
def pyInt (s : String) : Except String Int :=
  let t := ((s.toList.dropWhile Char.isWhitespace).reverse.dropWhile
    Char.isWhitespace).reverse
  let signed : Int × List Char :=
    match t with
    | '-' :: rest => (-1, rest)
    | '+' :: rest => (1, rest)
    | _ => (1, t)
  if signed.2 ≠ [] ∧ signed.2.all Char.isDigit = true then
    Except.ok (signed.1 *
      signed.2.foldl (fun n c => 10 * n + ((c.toNat - '0'.toNat : Nat) : Int)) 0)
  else
    Except.error "ValueError: invalid literal for int() with base 10"

/-! ### Change strategy: commit-touch count (`_get_number_of_commits`) -/

/-- Python `os.path.relpath(x, start=repo_path)` for a path below the repository
root (the enumerated files always are): drop the root components and join
the rest with `/`. -/
def relpathStr (file_path repo_path : List String) : String :=
  String.intercalate "/" (file_path.drop repo_path.length)

/-- The tally lookup of `_get_number_of_commits`:
`counts = Counter(files); del counts['']; counts[key]`.
`Counter.__delitem__` is a no-op for a missing key and `Counter.__missing__`
returns 0 for a missing key, so the lookup is total — a path with zero
occurrences yields 0, never a `KeyError`. -/
def counterAfterDel (files : List String) (key : String) : Nat :=
  if key = "" then 0 else files.count key

/-- Embeds `_get_number_of_commits`: split the whole-tree history output into
lines, tally them, and map each file path (converted to repo-root-relative
form) to its tally count in a new `changes` column. -/
def _get_number_of_commits (output : String) (repo_path : List String)
    (file_paths : List (List String)) : List Int :=
  let files := pySplit '\n' output
  file_paths.map (fun x => (counterAfterDel files (relpathStr x repo_path) : Int))

/-! ### Change strategy: total lines changed (`_count_file_total_lines_changed`) -/

/-- The summation loop of `_count_file_total_lines_changed`:
`sum(int(additions) + int(deletions) for additions, deletions in changes)`.
A field list that is not exactly a pair raises the unpack `ValueError`; a
field that `int()` rejects raises inside the generator.  Neither is caught
anywhere in the call chain. -/
def sumIntPairs : List (List String) → Except String Int
  | [] => Except.ok 0
  | fields :: rest =>
      match fields with
      | [additions, deletions] => do
          let a ← pyInt additions
          let d ← pyInt deletions
          let s ← sumIntPairs rest
          pure (a + d + s)
      | _ => Except.error "ValueError: not enough values to unpack"

/-- Embeds `_count_file_total_lines_changed`, parsing part: given the per-file
`git log --numstat` output, keep non-empty lines, take the first two
tab-separated fields of each, and sum them as integers.  (The query
execution is the external collaborator; its output is the parameter.) -/
def _count_file_total_lines_changed (output : String) : Except String Int :=
  let changes := ((pySplit '\n' output).filter (fun l => l ≠ "")).map
    (fun l => (pySplit '\t' l).take 2)
  sumIntPairs changes

/-- Whether one output line satisfies the parser's implicit precondition:
its first two tab-separated fields exist and parse as decimal integers. -/
def fieldsParse (fields : List String) : Bool :=
  match fields with
  | [a, d] => (pyInt a).isOk && (pyInt d).isOk
  | _ => false

/-- Definition `fieldsParse` applied the way `_count_file_total_lines_changed` slices
a line. -/
def numstatLineParses (l : String) : Bool := fieldsParse ((pySplit '\t' l).take 2)

/-! ### Complexity strategies -/

/-- Python `len(file.readlines())`: number of newline-terminated lines plus a
final unterminated chunk if any (text mode has already translated `\r\n`). -/
def _count_file_lines (content : String) : Nat :=
  if content = "" then 0
  else
    let n := (content.toList.filter (fun c => c = '\n')).length
    if content.toList.getLast? = some '\n' then n else n + 1

/-- Embeds `_count_file_left_white_spaces`: over every line whose left-stripped
content is non-empty and does not start with `#`, `//`, `/*` or `*`, sum
the number of leading whitespace characters (`len(line) - len(stripped)`;
the trailing newline a Python file iterator keeps is whitespace and never
leading, so splitting it off changes nothing). -/
def _count_file_left_white_spaces (content : String) : Nat :=
  ((pySplit '\n' content).map (fun line =>
    let stripped := pyLstrip line.toList
    if stripped ≠ [] ∧
        startsWithAny stripped [['#'], ['/', '/'], ['/', '*'], ['*']] = false then
      line.toList.length - stripped.length
    else 0)).sum

/-! ### Strategy selection (`get_complexity` / `get_changes`) and `__init__` -/

/-- Embeds `ComplexityMode`: the Python enum has exactly two members; `invalid`
models any other runtime value reaching the `match` (Python does not stop
one from being passed), carrying its display string. -/
inductive ComplexityMode where
  | NUMBER_OF_LINES
  | LEFT_WHITE_SPACES
  | invalid (value : String)
deriving DecidableEq

/-- Embeds `ChangesMode`: as `ComplexityMode`. -/
inductive ChangesMode where
  | NUMBER_OF_COMMITS
  | TOTAL_LINES_CHANGED
  | invalid (value : String)
deriving DecidableEq

/-- Embeds `get_complexity`: dispatch on the configured mode, computing the
complexity column from the file contents (the file reads are the external
collaborator; contents are parameters).  The wildcard branch raises
`ValueError`. -/
def get_complexity (complexity_method : ComplexityMode) (contents : List String) :
    Except String (List Nat) :=
  match complexity_method with
  | ComplexityMode.NUMBER_OF_LINES =>
      Except.ok (contents.map _count_file_lines)
  | ComplexityMode.LEFT_WHITE_SPACES =>
      Except.ok (contents.map _count_file_left_white_spaces)
  | ComplexityMode.invalid v =>
      Except.error ("ERROR: Mode " ++ v ++ " does not apply to complexity")

/-- Embeds `_get_total_lines_changed`: one per-file history query each
(`per_file_output` maps the relative path to the query output), summed by
`_count_file_total_lines_changed`; the first raised error escapes. -/
def _get_total_lines_changed (repo_path : List String)
    (file_paths : List (List String)) (per_file_output : String → String) :
    Except String (List Int) :=
  file_paths.mapM (fun x =>
    _count_file_total_lines_changed (per_file_output (relpathStr x repo_path)))

/-- Embeds `get_changes`: dispatch on the configured mode; the wildcard branch
raises `ValueError`. -/
def get_changes (changes_method : ChangesMode) (touch_output : String)
    (repo_path : List String) (file_paths : List (List String))
    (per_file_output : String → String) : Except String (List Int) :=
  match changes_method with
  | ChangesMode.NUMBER_OF_COMMITS =>
      Except.ok (_get_number_of_commits touch_output repo_path file_paths)
  | ChangesMode.TOTAL_LINES_CHANGED =>
      _get_total_lines_changed repo_path file_paths per_file_output
  | ChangesMode.invalid v =>
      Except.error ("ERROR: Mode " ++ v ++ " does not apply to changes")

/-! ### Repository locator (`find_repo_path`) -/

/-- The upward search loop of `find_repo_path`.  The current working
directory is its component list from the filesystem root; the loop consumes
components from the deep end (`os.chdir("..")` drops the innermost one), so
the recursion walks the reversed component list and `has_git d` models
`".git" in os.listdir()` inside directory `d` (given in root-first order).
Returns `(some repo_path, final_cwd)` when a marker is found — the source
does `os.chdir(original_cwd)` before returning — and `(none, final_cwd)`
when the filesystem root (`[]`) is reached without one, at which point
`SystemError` is raised with the cwd still at the root. -/
def findRepoLoopRev (has_git : List String → Bool) (original_cwd : List String) :
    List String → Option (List String) × List String
  | [] =>
      if has_git [] then (some [], original_cwd)
      else (none, [])
  | c :: rest =>
      if has_git ((c :: rest).reverse) then (some ((c :: rest).reverse), original_cwd)
      else findRepoLoopRev has_git original_cwd rest

/-- Embeds `find_repo_path`: record the original cwd, `os.chdir(analyze_path)`,
then walk upward. -/
def find_repo_path (has_git : List String → Bool)
    (analyze_path original_cwd : List String) :
    Option (List String) × List String :=
  findRepoLoopRev has_git original_cwd analyze_path.reverse

/-- The exclusion configuration loaded by `read_config` (the YAML read is an
external collaborator; the loaded values are parameters). -/
structure ConfigData where
  exclude_dirs : List String
  exclude_files : List String

/-- The fields `Hotspots.__init__` stores. -/
structure HotspotsState where
  analyze_path : List String
  repo_path : List String
  complexity_method : ComplexityMode
  changes_method : ChangesMode
  months_back : Int
  depth_level : Int
  config : ConfigData

/-- Embeds `Hotspots.__init__`: stores the arguments and locates the repository
(`SystemError` propagates when none is found).  The strategy fields are
stored WITHOUT validation — no branch of `__init__` inspects them. -/
def Hotspots.init (has_git : List String → Bool) (original_cwd : List String)
    (analyze_path : List String) (complexity_method : ComplexityMode)
    (changes_method : ChangesMode) (months_back depth_level : Int)
    (config : ConfigData) : Except String HotspotsState :=
  match find_repo_path has_git analyze_path original_cwd with
  | (some repo, _) =>
      Except.ok
        { analyze_path := analyze_path
          repo_path := repo
          complexity_method := complexity_method
          changes_method := changes_method
          months_back := months_back
          depth_level := depth_level
          config := config }
  | (none, _) =>
      Except.error "SystemError: The provided path does not correspond to a git repository"

/-! ### Classifier (`get_color`) -/

/-- Embeds `color_for_file` from `get_color`. -/
def color_for_file (file_path_str : String) : String :=
  if pyEndsWith file_path_str ".yaml" then "red"
  else if pyEndsWith file_path_str ".py" then "blue"
  else if pyEndsWith file_path_str "/" then "lime"
  else "grey"

/-- Embeds `legend_label` from `get_color`. -/
def legend_label (file_path_str : String) : String :=
  if pyEndsWith file_path_str ".yaml" then ".yaml"
  else if pyEndsWith file_path_str ".py" then ".py"
  else if pyEndsWith file_path_str "/" then "dir"
  else "other"

/-- Embeds `get_color`: the `color` and `legend` columns, one pair per row of the
path column. -/
def get_color (paths : List String) : List (String × String) :=
  paths.map (fun p => (color_for_file p, legend_label p))

/-! ### C4: zero-touch attribution -/

/-- C4 (zero-touch attribution): for every file in the enumerated table
whose repo-root-relative path does not occur among the (non-empty) lines of
the history output — i.e. it is absent from the commit-touch tally — the
commit-touch strategy assigns `changes = 0`.  The lookup itself is total by
construction (`counterAfterDel` has no error case, mirroring
`Counter.__missing__`), so no lookup error can be raised. -/
theorem zero_touch_changes (output : String) (repo_path : List String)
    (file_paths : List (List String)) (x : List String)
    (hx : x ∈ file_paths)
    (habsent : relpathStr x repo_path ∉ (pySplit '\n' output).filter (fun s => s ≠ "")) :
    counterAfterDel (pySplit '\n' output) (relpathStr x repo_path) = 0
    ∧ (0 : Int) ∈ _get_number_of_commits output repo_path file_paths := by
  have h0 : counterAfterDel (pySplit '\n' output) (relpathStr x repo_path) = 0 := by
    by_cases hk : relpathStr x repo_path = ""
    · simp [counterAfterDel, hk]
    · have hnm : relpathStr x repo_path ∉ pySplit '\n' output := by
        intro hmem
        exact habsent (List.mem_filter.mpr ⟨hmem, by simpa using hk⟩)
      simp [counterAfterDel, hk, List.count_eq_zero.mpr hnm]
  refine ⟨h0, ?_⟩
  have hmem : (0 : Int) ∈ file_paths.map (fun y =>
      (counterAfterDel (pySplit '\n' output) (relpathStr y repo_path) : Int)) :=
    List.mem_map.mpr ⟨x, hx, by rw [h0]; rfl⟩
  simpa [_get_number_of_commits] using hmem

/-- Witness for `zero_touch_changes`: history touching only `a.py`, looking
up the enumerated file `repo/b.py`. -/
theorem zero_touch_changes_witness :
    counterAfterDel (pySplit '\n' "a.py\n\na.py") (relpathStr ["repo", "b.py"] ["repo"]) = 0
    ∧ (0 : Int) ∈ _get_number_of_commits "a.py\n\na.py" ["repo"] [["repo", "b.py"]] :=
  zero_touch_changes "a.py\n\na.py" ["repo"] [["repo", "b.py"]] ["repo", "b.py"]
    (by decide) (by decide)

/-! ### C5: working-directory restoration -/

/-- C5 counterexample: with no version-control marker anywhere above
`/home/user`, the search raises after walking up to the filesystem root and
leaves the process cwd at the root (`[]`), NOT at the original cwd
`/work` — the claim's "restored whether it returns or fails" is false. -/
theorem find_repo_path_not_restored :
    (find_repo_path (fun _ => false) ["home", "user"] ["work"]).2 ≠ ["work"]
    ∧ (find_repo_path (fun _ => false) ["home", "user"] ["work"]).2 = [] := by
  constructor <;> decide

/-- C5 amended: the original working directory is restored exactly on the
success path; on the failure path (no marker before the filesystem root,
`SystemError` raised) the process cwd is left at the filesystem root. -/
theorem find_repo_path_cwd (has_git : List String → Bool)
    (analyze_path original_cwd : List String) :
    (find_repo_path has_git analyze_path original_cwd).2
      = if (find_repo_path has_git analyze_path original_cwd).1.isSome then
          original_cwd
        else [] := by
  unfold find_repo_path
  suffices h : ∀ l, (findRepoLoopRev has_git original_cwd l).2
      = if (findRepoLoopRev has_git original_cwd l).1.isSome then original_cwd else []
    from h _
  intro l
  induction l with
  | nil =>
      by_cases h : has_git [] <;> simp [findRepoLoopRev, h]
  | cons c rest ih =>
      by_cases h : has_git (rest.reverse ++ [c]) <;> simp [findRepoLoopRev, h, ih]

/-! ### C6: invalid strategy selection -/

/-- C6 counterexample: constructing the analysis object with an invalid
complexity strategy succeeds — `__init__` performs no strategy validation,
so nothing is "raised immediately at configuration/analysis start"; the
`ValueError` only appears once `get_complexity` runs (deferred to the point
where the metric is computed). -/
theorem invalid_mode_not_raised_at_init :
    (Hotspots.init (fun _ => true) ["orig"] ["repo"] (ComplexityMode.invalid "bogus")
        ChangesMode.NUMBER_OF_COMMITS (-1) (-1)
        { exclude_dirs := [], exclude_files := [] }).isOk = true
    ∧ get_complexity (ComplexityMode.invalid "bogus") []
      = Except.error "ERROR: Mode bogus does not apply to complexity" := by
  constructor
  · rfl
  · rfl

/-- C6 amended: selecting a complexity or change strategy outside the two
defined variants raises a fatal error (`ValueError`, the code's rendering of
the spec's `ConfigurationError`) — but it is raised when the metric is
computed (`get_complexity` / `get_changes`), not at configuration time:
`__init__`'s success is independent of the strategy arguments. -/
theorem invalid_mode_deferred_error (v : String) (contents : List String)
    (touch_output : String) (repo_path : List String)
    (file_paths : List (List String)) (per_file_output : String → String)
    (has_git : List String → Bool) (original_cwd analyze_path : List String)
    (cm : ComplexityMode) (gm : ChangesMode) (months_back depth_level : Int)
    (config : ConfigData) :
    get_complexity (ComplexityMode.invalid v) contents
      = Except.error ("ERROR: Mode " ++ v ++ " does not apply to complexity")
    ∧ get_changes (ChangesMode.invalid v) touch_output repo_path file_paths per_file_output
      = Except.error ("ERROR: Mode " ++ v ++ " does not apply to changes")
    ∧ (Hotspots.init has_git original_cwd analyze_path (ComplexityMode.invalid v)
          (ChangesMode.invalid v) months_back depth_level config).isOk
      = (Hotspots.init has_git original_cwd analyze_path cm gm
          months_back depth_level config).isOk := by
  refine ⟨rfl, rfl, ?_⟩
  unfold Hotspots.init
  rcases find_repo_path has_git analyze_path original_cwd with ⟨fst, snd⟩
  cases fst <;> rfl

/-! ### C9: totality precondition of the numstat parser -/

theorem except_bind_ok {α β : Type} {ε : Type} (a : α) (f : α → Except ε β) :
    (Except.ok a >>= f) = f a := rfl

theorem except_bind_error {α β : Type} {ε : Type} (e : ε) (f : α → Except ε β) :
    ((Except.error e : Except ε α) >>= f) = Except.error e := rfl

theorem except_pure {α ε : Type} (a : α) : (pure a : Except ε α) = Except.ok a := rfl

theorem isOk_ok {α ε : Type} (a : α) : (Except.ok a : Except ε α).isOk = true := rfl

theorem isOk_error {α ε : Type} (e : ε) :
    (Except.error e : Except ε α).isOk = false := rfl

theorem sumIntPairs_ok_iff :
    ∀ cs : List (List String),
      (∃ n, sumIntPairs cs = Except.ok n) ↔ cs.all fieldsParse = true := by
  intro cs
  induction cs with
  | nil => simp [sumIntPairs]
  | cons fields rest ih =>
      match fields with
      | [] => simp [sumIntPairs, fieldsParse]
      | [a] => simp [sumIntPairs, fieldsParse]
      | a :: d :: e :: t => simp [sumIntPairs, fieldsParse]
      | [a, d] =>
          simp only [List.all_cons, fieldsParse, Bool.and_eq_true]
          cases ha : pyInt a with
          | error e =>
              simp [sumIntPairs, ha, except_bind_error, isOk_error]
          | ok na =>
              cases hd : pyInt d with
              | error e =>
                  simp [sumIntPairs, ha, hd, except_bind_ok, except_bind_error,
                    isOk_ok, isOk_error]
              | ok nd =>
                  simp only [sumIntPairs, ha, hd, except_bind_ok, isOk_ok, true_and]
                  cases hs : sumIntPairs rest with
                  | error e =>
                      have hall : ¬ (rest.all fieldsParse = true) := by
                        intro hall
                        obtain ⟨ns, hns⟩ := ih.mpr hall
                        rw [hs] at hns
                        cases hns
                      simp [hs, except_bind_error, hall]
                  | ok ns =>
                      have hall : rest.all fieldsParse = true := ih.mp ⟨ns, hs⟩
                      simp [hs, except_bind_ok, except_pure, hall]

/-- C9 (implicit parser precondition): `_count_file_total_lines_changed`
returns a sum (no exception) exactly when every non-empty line of the
per-file history output has decimal integers as its first two tab-separated
fields; on the realizable binary-file marker output `-\t-\tfile.bin` the
`int()` conversion raises a `ValueError` that escapes the change strategy
(no handler exists in the call chain). -/
theorem numstat_totality_precondition :
    (∀ output : String,
        (∃ n, _count_file_total_lines_changed output = Except.ok n)
          ↔ ((pySplit '\n' output).filter (fun l => l ≠ "")).all numstatLineParses = true)
    ∧ _count_file_total_lines_changed "-\t-\tfile.bin"
        = Except.error "ValueError: invalid literal for int() with base 10" := by
  constructor
  · intro output
    unfold _count_file_total_lines_changed
    rw [sumIntPairs_ok_iff]
    have hmap : ∀ L : List String,
        (L.map (fun l => (pySplit '\t' l).take 2)).all fieldsParse
          = L.all numstatLineParses := by
      intro L
      induction L with
      | nil => rfl
      | cons x xs ih => simp only [List.map_cons, List.all_cons, ih]; rfl
    rw [hmap]
  · rfl

/-! ### C10: color/legend consistency -/

/-- C10 (color/legend consistency): `get_color` assigns `color` and
`legend` by two pure functions of the row's path string branching on the
same conditions in the same order (`.yaml`, then `.py`, then trailing `/`,
then fallback), so every row's pair is exactly one of
`("red", ".yaml")`, `("blue", ".py")`, `("lime", "dir")`,
`("grey", "other")`. -/
theorem color_legend_consistent (paths : List String) (pr : String × String)
    (hpr : pr ∈ get_color paths) :
    pr ∈ ([("red", ".yaml"), ("blue", ".py"), ("lime", "dir"), ("grey", "other")] :
      List (String × String)) := by
  obtain ⟨p, -, rfl⟩ := List.mem_map.mp hpr
  by_cases h1 : pyEndsWith p ".yaml" <;>
    by_cases h2 : pyEndsWith p ".py" <;>
    by_cases h3 : pyEndsWith p "/" <;>
    simp [color_for_file, legend_label, h1, h2, h3]

/-- Witness for `color_legend_consistent` on a concrete table. -/
theorem color_legend_consistent_witness :
    ("lime", "dir") ∈ ([("red", ".yaml"), ("blue", ".py"), ("lime", "dir"),
      ("grey", "other")] : List (String × String)) :=
  color_legend_consistent ["a.txt", "src/"] ("lime", "dir") (by decide)

/-! ### File enumerator (`get_files`) -/

/-- A filesystem subtree entry as `os.walk` sees it: a file name or a
directory name with its children. -/
inductive FsEntry where
  | file : String → FsEntry
  | dir : String → List FsEntry → FsEntry

/-- The files of one directory level, in walk order: base names not in
`exclude_files` (the `if file in exclude_files: continue` skip), as
single-component relative paths. -/
def filesOf (exclude_files : List String) (entries : List FsEntry) :
    List (List String) :=
  entries.filterMap fun e =>
    match e with
    | FsEntry.file n => if n ∈ exclude_files then none else some [n]
    | FsEntry.dir _ _ => none

/-- The recursive part of the walk: descend into every subdirectory whose
name survives the prune
`dirs[:] = [d for d in dirs if d not in self.config["exclude_dirs"]]`
— an excluded directory is never descended into, so its whole subtree is
skipped — prefixing each produced path with the directory name.  Top-down
`os.walk` order: a subdirectory's own files come before its sub-subtrees. -/
def walkDirs (exclude_dirs exclude_files : List String) :
    List FsEntry → List (List String)
  | [] => []
  | FsEntry.file _ :: rest => walkDirs exclude_dirs exclude_files rest
  | FsEntry.dir n cs :: rest =>
      (if n ∈ exclude_dirs then []
       else (filesOf exclude_files cs
          ++ walkDirs exclude_dirs exclude_files cs).map (fun p => n :: p))
      ++ walkDirs exclude_dirs exclude_files rest

/-- Embeds `get_files`: the enumerated file paths (components relative to the
analysis root) in `os.walk` top-down order — the root's own files first,
then each surviving subdirectory's subtree. -/
def get_files (config : ConfigData) (root_entries : List FsEntry) :
    List (List String) :=
  filesOf config.exclude_files root_entries
    ++ walkDirs config.exclude_dirs config.exclude_files root_entries

theorem filesOf_sound (exclude_files : List String) (entries : List FsEntry)
    (p : List String) (hp : p ∈ filesOf exclude_files entries) :
    ∃ n, p = [n] ∧ n ∉ exclude_files := by
  obtain ⟨e, -, he⟩ := List.mem_filterMap.mp hp
  cases e with
  | file n =>
      by_cases hn : n ∈ exclude_files
      · simp [hn] at he
      · simp only [hn, if_false] at he
        exact ⟨n, by injection he with h; exact h.symm, hn⟩
  | dir n cs => exact absurd he (by simp)

theorem walkDirs_sound (exclude_dirs exclude_files : List String) :
    ∀ entries : List FsEntry, ∀ p ∈ walkDirs exclude_dirs exclude_files entries,
      p ≠ [] ∧ (∀ c ∈ p.dropLast, c ∉ exclude_dirs)
        ∧ (∀ b, p.getLast? = some b → b ∉ exclude_files) := by
  intro entries
  induction entries using walkDirs.induct exclude_dirs exclude_files with
  | case1 => intro p hp; simp [walkDirs] at hp
  | case2 _ rest ih =>
      intro p hp
      simp only [walkDirs] at hp
      exact ih p hp
  | case3 n cs rest ih1 ih2 =>
      intro p hp
      simp only [walkDirs, List.mem_append] at hp
      rcases hp with hp | hp
      · by_cases hn : n ∈ exclude_dirs
        · rw [if_pos hn] at hp
          simp at hp
        · rw [if_neg hn] at hp
          obtain ⟨q, hq, rfl⟩ := List.mem_map.mp hp
          rcases List.mem_append.mp hq with hqf | hqw
          · obtain ⟨m, rfl, hm⟩ := filesOf_sound exclude_files cs q hqf
            refine ⟨by simp, ?_, ?_⟩
            · intro c hc
              simp at hc
              exact hc ▸ hn
            · intro b hb
              simp at hb
              exact hb ▸ hm
          · obtain ⟨hne, hdrop, hlast⟩ := ih1 q hqw
            refine ⟨by simp, ?_, ?_⟩
            · intro c hc
              cases q with
              | nil => exact absurd rfl hne
              | cons q0 qt =>
                  have hd : (n :: q0 :: qt).dropLast = n :: (q0 :: qt).dropLast := rfl
                  rw [hd] at hc
                  rcases List.mem_cons.mp hc with rfl | hc
                  · exact hn
                  · exact hdrop c hc
            · intro b hb
              cases q with
              | nil => exact absurd rfl hne
              | cons q0 qt =>
                  have hl : (n :: q0 :: qt).getLast? = (q0 :: qt).getLast? := by
                    simp
                  rw [hl] at hb
                  exact hlast b hb
      · exact ih2 p hp

/-- C7 counterexample: with `exclude_dirs = ["x"]` and a FILE named `x` in
the root, the enumerator still produces the path `x` — the prune edits only
the `dirs` list, so directory exclusion never applies to a file, and an
enumerated path CAN contain a configured excluded directory name as a path
component (here, as its base name). -/
theorem excluded_dir_name_as_file_enumerated :
    ¬ (∀ p ∈ get_files { exclude_dirs := ["x"], exclude_files := [] }
          [FsEntry.file "x"], ∀ c ∈ p, c ∉ (["x"] : List String)) := by
  intro h
  have hmem : (["x"] : List String)
      ∈ get_files { exclude_dirs := ["x"], exclude_files := [] }
        [FsEntry.file "x"] := by
    simp [get_files, filesOf, walkDirs]
  have := h ["x"] hmem "x" (by simp)
  simp at this

/-- C7 amended (exclusion soundness with prune-on-descent): no enumerated
path passes through an excluded directory — no configured excluded
directory name occurs among the DIRECTORY components of a produced path
(everything before the base name, at any nesting depth, since pruning stops
descent) — and no produced path has a configured excluded file name as its
base name.  (A file merely named like an excluded directory is still
enumerated, which is all the counterexample exhibits.) -/
theorem exclusion_soundness (exclude_dirs exclude_files : List String)
    (root_entries : List FsEntry) (p : List String)
    (hp : p ∈ get_files ⟨exclude_dirs, exclude_files⟩ root_entries) :
    (∀ c ∈ p.dropLast, c ∉ exclude_dirs)
    ∧ (∀ b, p.getLast? = some b → b ∉ exclude_files) := by
  unfold get_files at hp
  rcases List.mem_append.mp hp with hpf | hpw
  · obtain ⟨m, rfl, hm⟩ := filesOf_sound _ _ _ hpf
    constructor
    · intro c hc
      simp at hc
    · intro b hb
      simp at hb
      exact hb ▸ hm
  · obtain ⟨-, h2, h3⟩ :=
      walkDirs_sound exclude_dirs exclude_files root_entries p hpw
    exact ⟨h2, h3⟩

/-- Witness for `exclusion_soundness`: the path `a/b.py` enumerated from a
tree that also contains an excluded `node_modules` subtree and an excluded
file name. -/
theorem exclusion_soundness_witness :
    (∀ c ∈ (["a", "b.py"] : List String).dropLast, c ∉ (["node_modules"] : List String))
    ∧ (∀ b, (["a", "b.py"] : List String).getLast? = some b
        → b ∉ (["skip.txt"] : List String)) :=
  exclusion_soundness ["node_modules"] ["skip.txt"]
    [FsEntry.dir "a" [FsEntry.file "b.py"],
     FsEntry.dir "node_modules" [FsEntry.file "z"],
     FsEntry.file "c"]
    ["a", "b.py"]
    (by simp [get_files, filesOf, walkDirs])

/-! ### C8: time windowing of the change strategies -/

/-- Embeds `_get_number_of_commits_command`: the whole-tree history query; when
`months_back` is not the unbounded sentinel `-1`, `--since=<date>` is
inserted at index 4, the date being now minus `30 * months_back` days. -/
def _get_number_of_commits_command (repo_path : String) (months_back : Int)
    (since_date : String) : List String :=
  let command :=
    ["git", "-C", repo_path, "log", "--pretty=format:", "--name-only", "--", "."]
  if months_back ≠ -1 then command.insertIdx 4 ("--since=" ++ since_date)
  else command

/-- Embeds `_get_lines_changed_command`: the per-file numstat query, windowed the
same way. -/
def _get_lines_changed_command (repo_path : String) (months_back : Int)
    (since_date : String) (rel_path : String) : List String :=
  let command :=
    ["git", "-C", repo_path, "log", "--numstat", "--pretty=format:", "--", rel_path]
  if months_back ≠ -1 then command.insertIdx 4 ("--since=" ++ since_date)
  else command

/-- Modelled from the spec: one per-commit numeric add/delete record the
version-control collaborator reports for a path (`git log --numstat`). -/
structure NumstatEntry where
  adds : Nat
  dels : Nat
  path : String
deriving DecidableEq

/-- Modelled from the spec: one commit of the version-control history — its
date (days, absolute scale) and, per §6 of the spec, the file paths it
touched and its numstat records.  The collaborator that executes the
queries is external; only the two query shapes and their windowing are
specified. -/
structure Commit where
  date : Int
  touched : List String
  numstat : List NumstatEntry
deriving DecidableEq

/-- The cutoff the `months_back` configuration translates to: both command
builders insert `--since=(now - 30 * months_back days)` exactly when
`months_back ≠ -1`, and no cutoff otherwise. -/
def windowCutoff (now months_back : Int) : Option Int :=
  if months_back ≠ -1 then some (now - 30 * months_back) else none

/-- Modelled from the spec: the commits a windowed history query reports —
all of them without a cutoff, only those at or after the cutoff date with
one ("list ... optionally since date D"). -/
def historyInWindow (history : List Commit) : Option Int → List Commit
  | none => history
  | some cutoff => history.filter (fun cm => cutoff ≤ cm.date)

/-- Modelled from the spec: the output lines of query (a), the whole-tree
touched-files listing — per reported commit, its touched paths followed by
the blank separator line the empty pretty-format leaves (discarded later by
the tally's `del counts['']`). -/
def touchQueryLines (history : List Commit) (cutoff : Option Int) : List String :=
  (historyInWindow history cutoff).flatMap (fun cm => cm.touched ++ [""])

/-- The commit-touch `changes` value of one file: the
`_get_number_of_commits` tally lookup over the windowed query output. -/
def numberOfCommitsChanges (history : List Commit) (cutoff : Option Int)
    (rel_path : String) : Nat :=
  counterAfterDel (touchQueryLines history cutoff) rel_path

/-- Modelled from the spec: the add/delete pairs query (b) reports for one
path over the reported commits. -/
def numstatPairs (history : List Commit) (cutoff : Option Int)
    (rel_path : String) : List (Nat × Nat) :=
  (historyInWindow history cutoff).flatMap (fun cm =>
    (cm.numstat.filter (fun e => e.path = rel_path)).map (fun e => (e.adds, e.dels)))

/-- The total-lines-changed `changes` value of one file: additions plus
deletions summed over the windowed per-file query. -/
def totalLinesChangedValue (history : List Commit) (cutoff : Option Int)
    (rel_path : String) : Nat :=
  ((numstatPairs history cutoff rel_path).map (fun pr => pr.1 + pr.2)).sum

theorem flatMap_sublist {α β : Type} (f : α → List β) {l₁ l₂ : List α}
    (h : l₁.Sublist l₂) : (l₁.flatMap f).Sublist (l₂.flatMap f) := by
  induction h with
  | slnil => simp
  | cons a h ih => exact ih.trans (List.sublist_append_right _ _)
  | cons₂ a h ih => exact List.Sublist.append_left ih _

/-- C8 (windowing monotonicity): for a fixed file and a fixed history, the
`changes` value computed with `months_back = N ≥ 0` (translated to a cutoff
date restricting which commits the history query reports) is at most the
value computed with the unbounded sentinel `months_back = -1`, for both the
commit-touch and the total-lines-changed strategy. -/
theorem windowing_monotone (history : List Commit) (now N : Int) (hN : 0 ≤ N)
    (rel_path : String) :
    numberOfCommitsChanges history (windowCutoff now N) rel_path
      ≤ numberOfCommitsChanges history (windowCutoff now (-1)) rel_path
    ∧ totalLinesChangedValue history (windowCutoff now N) rel_path
      ≤ totalLinesChangedValue history (windowCutoff now (-1)) rel_path := by
  have hwin : ∀ c : Option Int, (historyInWindow history c).Sublist history := by
    intro c
    cases c with
    | none => exact List.Sublist.refl _
    | some cutoff => exact List.filter_sublist _
  have hnone : windowCutoff now (-1) = none := by simp [windowCutoff]
  constructor
  · unfold numberOfCommitsChanges counterAfterDel
    rw [hnone]
    by_cases hk : rel_path = ""
    · simp [hk]
    · rw [if_neg hk, if_neg hk]
      exact (flatMap_sublist _ (hwin _)).count_le rel_path
  · unfold totalLinesChangedValue
    rw [hnone]
    have hsub := (flatMap_sublist (fun cm : Commit =>
      (cm.numstat.filter (fun e => e.path = rel_path)).map
        (fun e => (e.adds, e.dels))) (hwin (windowCutoff now N)))
    exact (hsub.map (fun pr => pr.1 + pr.2)).sum_le_sum (by simp)

/-- Witness for `windowing_monotone`: a two-commit history, `now = 90`,
window `N = 1` (cutoff 60) versus the unbounded sentinel. -/
theorem windowing_monotone_witness :
    numberOfCommitsChanges
        [{ date := 100, touched := ["a.py"], numstat := [{ adds := 3, dels := 4, path := "a.py" }] },
         { date := 0, touched := ["a.py"], numstat := [{ adds := 1, dels := 1, path := "a.py" }] }]
        (windowCutoff 90 1) "a.py"
      ≤ numberOfCommitsChanges
        [{ date := 100, touched := ["a.py"], numstat := [{ adds := 3, dels := 4, path := "a.py" }] },
         { date := 0, touched := ["a.py"], numstat := [{ adds := 1, dels := 1, path := "a.py" }] }]
        (windowCutoff 90 (-1)) "a.py"
    ∧ totalLinesChangedValue
        [{ date := 100, touched := ["a.py"], numstat := [{ adds := 3, dels := 4, path := "a.py" }] },
         { date := 0, touched := ["a.py"], numstat := [{ adds := 1, dels := 1, path := "a.py" }] }]
        (windowCutoff 90 1) "a.py"
      ≤ totalLinesChangedValue
        [{ date := 100, touched := ["a.py"], numstat := [{ adds := 3, dels := 4, path := "a.py" }] },
         { date := 0, touched := ["a.py"], numstat := [{ adds := 1, dels := 1, path := "a.py" }] }]
        (windowCutoff 90 (-1)) "a.py" :=
  windowing_monotone
    [{ date := 100, touched := ["a.py"], numstat := [{ adds := 3, dels := 4, path := "a.py" }] },
     { date := 0, touched := ["a.py"], numstat := [{ adds := 1, dels := 1, path := "a.py" }] }]
    90 1 (by decide) "a.py"

end RepoInsights
